import Mathlib

/-!
Verification of the segment-splitting and config-serialization jobs of this
repository (corpus/segments.py and returnn/config.py), via a shallow
embedding in Lean.  Python dicts are modelled as association lists with
Python's insertion/update semantics, Python floats as exact rationals, and
the external libraries (sisyphus `Job.hash`, `numpy.random.choice`, `json`,
the `wave` module) as explicit function parameters.
-/

namespace I6Core

/-- Byte-wise (code-point) comparison of strings, as Python compares
`str` values: lexicographic over the code points.  Defined on the
character lists so that it reduces structurally. -/
def strLeB : List Char → List Char → Bool
  | [], _ => true
  | _ :: _, [] => false
  | a :: as, b :: bs =>
    if a.toNat < b.toNat then true
    else if b.toNat < a.toNat then false
    else strLeB as bs

/-- Python's `<=` on strings, as a proposition. -/
def keyLe (a b : String) : Prop := strLeB a.data b.data = true

instance : DecidableRel keyLe :=
  fun a b => inferInstanceAs (Decidable (strLeB a.data b.data = true))

/-- Python's `sorted` on a list of strings (used for `sorted(dict.keys())`). -/
def pySorted (l : List String) : List String := List.insertionSort keyLe l

/-- Python's `str.strip()` on the character list: drop whitespace from
both ends. -/
def stripList (cs : List Char) : List Char :=
  ((cs.dropWhile Char.isWhitespace).reverse.dropWhile Char.isWhitespace).reverse

/-- Python's `str.strip()`. -/
def pyStrip (s : String) : String := ⟨stripList s.data⟩

/-- Assignment `d[k] = v` on a Python dict modelled as an association
list: an existing key keeps its position and gets the new value, a new
key is appended at the end (Python dicts preserve insertion order). -/
def dictInsert {α : Type} (d : List (String × α)) (k : String) (v : α) :
    List (String × α) :=
  if d.any (fun p => p.1 == k) then
    d.map (fun p => if p.1 == k then (k, v) else p)
  else d ++ [(k, v)]

/-- Lookup `d[k]` on a Python dict modelled as an association list. -/
def dictLookup {α : Type} (d : List (String × α)) (k : String) : Option α :=
  (d.find? (fun p => p.1 == k)).map Prod.snd

/-- Python's `d.update(e)`. -/
def dictUpdate {α : Type} (d e : List (String × α)) : List (String × α) :=
  e.foldl (fun acc p => dictInsert acc p.1 p.2) d

/-- Python's slice `l[a:b]` for non-negative bounds: indices `a ≤ i < b`,
clipped to the list. -/
def pySlice {α : Type} (l : List α) (a b : ℕ) : List α := (l.take b).drop a

namespace ShuffleAndSplitSegments

/-- The class attribute `ShuffleAndSplitSegments.default_split`. -/
def default_split : List (String × ℚ) := [("train", 9/10), ("dev", 1/10)]

/-- The constructor check of `ShuffleAndSplitSegments.__init__`:
`split` is a dict, all proportions are strictly positive, and the
proportions sum to 1 up to the tolerance 1e-10.  (Python's floats are
modelled as exact rationals.) -/
def validSplit (split : List (String × ℚ)) : Prop :=
  (∀ p ∈ split, 0 < p.2) ∧ |(split.map Prod.snd).sum - 1| < 1 / 10 ^ 10

instance : DecidablePred validSplit := fun s => by
  unfold validSplit; infer_instance

/-- The constructor `ShuffleAndSplitSegments.__init__`: a `None` split is
replaced by the default, then the assertions run before any output path
is declared; on success the supplied split is stored unchanged. -/
def init (split : Option (List (String × ℚ))) :
    Except String (List (String × ℚ)) :=
  let s := split.getD default_split
  if validSplit s then Except.ok s else Except.error "AssertionError"

/-- `itertools.accumulate` with a starting partial sum `a`. -/
def accumulate (a : ℚ) : List ℚ → List ℚ
  | [] => []
  | x :: xs => (a + x) :: accumulate (a + x) xs

/-- The boundary computation of `ShuffleAndSplitSegments.run`:
`split_idx = [0] + [int(n * c) for c in accumulate(...)]` followed by
`split_idx[-1] = n`.  `int()` truncates toward zero, which on the
non-negative values arising here is the floor; replacing the last entry
of the non-empty list is written as `dropLast ++ [n]`. -/
def splitIdx (n : ℕ) (props : List ℚ) : List ℕ :=
  (0 :: (accumulate 0 props).map fun c => (⌊(n : ℚ) * c⌋).toNat).dropLast ++ [n]

/-- The body of `ShuffleAndSplitSegments.run`.  The seeded
`random.Random(seed).shuffle` is modelled by the permutation parameter
`rngShuffle`, applied exactly when `shuffle` is true.  Split names are
sorted, the cumulative boundaries are computed, and each name receives
the slice between its consecutive boundaries. -/
def run (shuffle : Bool) (rngShuffle : List String → List String)
    (segments : List String) (split : List (String × ℚ)) :
    List (String × List String) :=
  let segs := if shuffle then rngShuffle segments else segments
  let orderedKeys := pySorted (split.map Prod.fst)
  let n := segs.length
  let idx := splitIdx n (orderedKeys.map fun k => (dictLookup split k).getD 0)
  (orderedKeys.zip (idx.zip idx.tail)).map fun p => (p.1, pySlice segs p.2.1 p.2.2)

/-- The identity of the job: `ShuffleAndSplitSegments.hash` replaces a
split that equals the default dict by `None` before delegating to the
(external) `Job.hash`, modelled by the parameter `superHash`. -/
def matchesDefault (s : List (String × ℚ)) : Prop :=
  s.length = default_split.length ∧
    ∀ p ∈ s, dictLookup default_split p.1 = some p.2

instance : DecidablePred matchesDefault := fun s => by
  unfold matchesDefault; infer_instance

/-- The constructor keyword arguments of `ShuffleAndSplitSegments`. -/
structure Kwargs where
  segment_file : String
  split : Option (List (String × ℚ))
  shuffle : Bool
  shuffle_seed : ℤ
deriving DecidableEq

/-- `ShuffleAndSplitSegments.hash(kwargs)`. -/
def hash {α : Type} (superHash : Kwargs → α) (kwargs : Kwargs) : α :=
  let kwargsCopy :=
    match kwargs.split with
    | some s => if matchesDefault s then { kwargs with split := none } else kwargs
    | none => kwargs
  superHash kwargsCopy

end ShuffleAndSplitSegments

lemma accumulate_c1 :
    ShuffleAndSplitSegments.accumulate 0 [(1 : ℚ)/10, 9/10] = [1/10, 1] := by
  norm_num [ShuffleAndSplitSegments.accumulate]

lemma splitIdx_c1 : ShuffleAndSplitSegments.splitIdx 10 [(1 : ℚ)/10, 9/10] = [0, 1, 10] := by
  rw [ShuffleAndSplitSegments.splitIdx, accumulate_c1]
  norm_num

lemma sortedKeys_default : pySorted ["train", "dev"] = ["dev", "train"] := by
  decide

/-- Evaluation of `run` on the C1 scenario. -/
lemma shuffleAndSplit_c1_eval :
    ShuffleAndSplitSegments.run false (fun l => l)
      ["a", "b", "c", "d", "e", "f", "g", "h", "i", "j"]
      ShuffleAndSplitSegments.default_split =
      [("dev", ["a"]), ("train", ["b", "c", "d", "e", "f", "g", "h", "i", "j"])] := by
  have hlookup_dev :
      dictLookup [("train", (9 : ℚ)/10), ("dev", 1/10)] "dev" = some (1/10) := rfl
  have hlookup_train :
      dictLookup [("train", (9 : ℚ)/10), ("dev", 1/10)] "train" = some (9/10) := rfl
  rw [ShuffleAndSplitSegments.run]
  simp only [ShuffleAndSplitSegments.default_split, List.map_cons, List.map_nil,
    Bool.false_eq_true, if_false, sortedKeys_default, hlookup_dev, hlookup_train,
    Option.getD_some, List.length_cons, List.length_nil]
  rw [show ((0 : ℕ) + 1 + 1 + 1 + 1 + 1 + 1 + 1 + 1 + 1 + 1) = 10 by norm_num]
  rw [splitIdx_c1]
  decide

/-- Claim C1 (counterexample): on `["a", …, "j"]` with the default split
and shuffle disabled, `run` does NOT give the first 9 lines to "train"
and the last line to "dev": the split names are processed in sorted
order ("dev" < "train"), so "dev" takes the first slice. -/
theorem shuffleAndSplit_c1_counterexample :
    ¬(dictLookup
        (ShuffleAndSplitSegments.run false (fun l => l)
          ["a", "b", "c", "d", "e", "f", "g", "h", "i", "j"]
          ShuffleAndSplitSegments.default_split) "train" =
        some ["a", "b", "c", "d", "e", "f", "g", "h", "i"] ∧
      dictLookup
        (ShuffleAndSplitSegments.run false (fun l => l)
          ["a", "b", "c", "d", "e", "f", "g", "h", "i", "j"]
          ShuffleAndSplitSegments.default_split) "dev" =
        some ["j"]) := by
  intro h
  have hrun : ShuffleAndSplitSegments.run false (fun l => l)
      ["a", "b", "c", "d", "e", "f", "g", "h", "i", "j"]
      ShuffleAndSplitSegments.default_split =
      [("dev", ["a"]), ("train", ["b", "c", "d", "e", "f", "g", "h", "i", "j"])] :=
    shuffleAndSplit_c1_eval
  rw [hrun] at h
  revert h
  decide

/-- Claim C1 (amended): on `["a", …, "j"]` with the default split and
shuffle disabled, `run` assigns the first 1 line to the "dev" split and
the last 9 lines to the "train" split: split names are processed in
lexicographically sorted order, and "dev" sorts before "train". -/
theorem shuffleAndSplit_c1_amended :
    ShuffleAndSplitSegments.run false (fun l => l)
      ["a", "b", "c", "d", "e", "f", "g", "h", "i", "j"]
      ShuffleAndSplitSegments.default_split =
      [("dev", ["a"]), ("train", ["b", "c", "d", "e", "f", "g", "h", "i", "j"])] :=
  shuffleAndSplit_c1_eval

lemma pySlice_length {α : Type} (l : List α) (a b : ℕ) :
    (pySlice l a b).length = min b l.length - min a l.length := by
  simp only [pySlice, List.length_drop, List.length_take]
  omega

/-- Telescoping sum of the (clipped) slice lengths over consecutive
boundary pairs, for boundaries whose clipped values are monotone. -/
lemma sliceLen_sum {α : Type} (l : List α) :
    ∀ (rest : List ℕ) (a : ℕ),
      List.Chain (fun x y => min x l.length ≤ min y l.length) a rest →
      (((a :: rest).zip rest).map
          (fun p => (pySlice l p.1 p.2).length)).sum
          = min (rest.getLastD a) l.length - min a l.length ∧
        min a l.length ≤ min (rest.getLastD a) l.length := by
  intro rest
  induction rest with
  | nil => intro a _; simp
  | cons b bs ih =>
    intro a hchain
    rcases hchain with _ | ⟨hab, hchain⟩
    obtain ⟨ihsum, ihle⟩ := ih b hchain
    have hlast : (b :: bs).getLastD a = bs.getLastD b := List.getLastD_cons _ _ _
    rw [hlast]
    refine ⟨?_, le_trans hab ihle⟩
    simp only [List.zip_cons_cons, List.map_cons, List.sum_cons]
    rw [ihsum, pySlice_length]
    omega

lemma accumulate_length (props : List ℚ) :
    ∀ a : ℚ, (ShuffleAndSplitSegments.accumulate a props).length = props.length := by
  induction props with
  | nil => intro a; rfl
  | cons x xs ih =>
    intro a
    simp [ShuffleAndSplitSegments.accumulate, ih]

lemma accumulate_chain (props : List ℚ) :
    ∀ a : ℚ, (∀ x ∈ props, 0 ≤ x) →
      List.Chain (· ≤ ·) a (ShuffleAndSplitSegments.accumulate a props) := by
  induction props with
  | nil => intro a _; exact List.Chain.nil
  | cons x xs ih =>
    intro a h
    refine List.Chain.cons ?_ (ih (a + x) fun y hy => h y (List.mem_cons_of_mem _ hy))
    exact le_add_of_nonneg_right (h x (List.mem_cons_self _ _))

lemma chain_dropLast {α : Type} (R : α → α → Prop) :
    ∀ (l : List α) (a : α), List.Chain R a l → List.Chain R a l.dropLast := by
  intro l
  induction l with
  | nil => intro a _; exact List.Chain.nil
  | cons x xs ih =>
    intro a hchain
    rcases hchain with _ | ⟨hax, hchain⟩
    cases xs with
    | nil => exact List.Chain.nil
    | cons y ys =>
      rw [List.dropLast_cons₂]
      exact List.Chain.cons hax (ih x hchain)

lemma chain_append_last {α : Type} (R : α → α → Prop) (z : α) (hz : ∀ x, R x z) :
    ∀ (l : List α) (a : α), List.Chain R a l → List.Chain R a (l ++ [z]) := by
  intro l
  induction l with
  | nil => intro a _; exact List.Chain.cons (hz a) List.Chain.nil
  | cons x xs ih =>
    intro a hchain
    rcases hchain with _ | ⟨hax, hchain⟩
    exact List.Chain.cons hax (ih x hchain)

lemma dictLookup_mem {α : Type} (d : List (String × α)) (k : String)
    (hk : k ∈ d.map Prod.fst) : ∃ v, dictLookup d k = some v ∧ (k, v) ∈ d := by
  induction d with
  | nil => simp at hk
  | cons p ps ih =>
    by_cases hpk : p.1 = k
    · refine ⟨p.2, ?_, ?_⟩
      · unfold dictLookup
        rw [List.find?_cons_of_pos _ (by simp [hpk])]
        rfl
      · rw [← hpk]
        exact List.mem_cons_self _ _
    · have hk' : k ∈ ps.map Prod.fst := by
        rcases List.mem_map.mp hk with ⟨q, hq, hqk⟩
        rcases List.mem_cons.mp hq with rfl | hq'
        · exact absurd hqk hpk
        · exact List.mem_map.mpr ⟨q, hq', hqk⟩
      obtain ⟨v, h1, h2⟩ := ih hk'
      refine ⟨v, ?_, List.mem_cons_of_mem _ h2⟩
      unfold dictLookup at h1 ⊢
      rw [List.find?_cons_of_neg _ (by simp [hpk])]
      exact h1

/-- Claim C3: for every input list and every valid split specification
(all proportions strictly positive, sum within 1e-10 of 1),
`ShuffleAndSplitSegments.run` processes the split names in
lexicographically sorted order, and the resulting split sizes sum
exactly to the number of input lines (the final boundary being forced to
`n`, the last split absorbs the rounding remainder).  The seeded shuffle
is an arbitrary length-preserving permutation. -/
theorem shuffleAndSplit_c3 (shuffle : Bool) (rngShuffle : List String → List String)
    (segments : List String) (split : List (String × ℚ))
    (hLen : ∀ l, (rngShuffle l).length = l.length)
    (hPos : ∀ p ∈ split, 0 < p.2)
    (hSum : |(split.map Prod.snd).sum - 1| < 1 / 10 ^ 10) :
    (ShuffleAndSplitSegments.run shuffle rngShuffle segments split).map Prod.fst
        = pySorted (split.map Prod.fst) ∧
      ((ShuffleAndSplitSegments.run shuffle rngShuffle segments split).map
          (fun p => p.2.length)).sum = segments.length := by
  simp only [ShuffleAndSplitSegments.run]
  set segs := (if shuffle then rngShuffle segments else segments) with hsegsdef
  have hseglen : segs.length = segments.length := by
    rw [hsegsdef]; cases shuffle <;> simp [hLen]
  set orderedKeys := pySorted (split.map Prod.fst) with hokdef
  set props := orderedKeys.map (fun k => (dictLookup split k).getD 0) with hpropsdef
  set idx := ShuffleAndSplitSegments.splitIdx segs.length
    (orderedKeys.map fun k => (dictLookup split k).getD 0) with hidxdef
  -- basic facts
  have hsplitne : split ≠ [] := by
    intro h
    rw [h] at hSum
    norm_num at hSum
  have hoklen : orderedKeys.length = split.length := by
    rw [hokdef]
    simp [pySorted, List.length_insertionSort]
  have hproplen : props.length = orderedKeys.length := by
    rw [hpropsdef, List.length_map]
  have hpropsne : props ≠ [] := by
    intro h
    have : props.length = 0 := by rw [h]; rfl
    rw [hproplen, hoklen] at this
    exact hsplitne (List.length_eq_zero.mp this)
  have hpos' : ∀ x ∈ props, (0 : ℚ) ≤ x := by
    intro x hx
    rw [hpropsdef] at hx
    rcases List.mem_map.mp hx with ⟨k, hk, rfl⟩
    have hk' : k ∈ split.map Prod.fst :=
      ((List.perm_insertionSort keyLe (split.map Prod.fst)).mem_iff).mp hk
    obtain ⟨v, hv, hmem⟩ := dictLookup_mem split k hk'
    rw [hv, Option.getD_some]
    exact le_of_lt (hPos _ hmem)
  -- the boundary list
  set f : ℚ → ℕ := fun c => (⌊(segs.length : ℚ) * c⌋).toNat with hfdef
  obtain ⟨p0, ps, hprops_eq⟩ := List.exists_cons_of_ne_nil hpropsne
  have hfloorsne :
      (ShuffleAndSplitSegments.accumulate 0 props).map f ≠ [] := by
    rw [hprops_eq]
    simp [ShuffleAndSplitSegments.accumulate]
  obtain ⟨g, gs, hgs⟩ :=
    List.exists_cons_of_ne_nil hfloorsne
  have hidx_cons : idx = 0 ::
      (((ShuffleAndSplitSegments.accumulate 0 props).map f).dropLast ++ [segs.length]) := by
    rw [hidxdef, ShuffleAndSplitSegments.splitIdx, ← hpropsdef, ← hfdef, hgs,
      List.dropLast_cons₂, List.cons_append]
  -- chain of clipped boundaries
  have hchainQ : List.Chain (· ≤ ·) 0 (ShuffleAndSplitSegments.accumulate 0 props) :=
    accumulate_chain props 0 hpos'
  have hmono : ∀ a b : ℚ, a ≤ b →
      min (f a) segs.length ≤ min (f b) segs.length := by
    intro a b hab
    have hfloor : ⌊(segs.length : ℚ) * a⌋ ≤ ⌊(segs.length : ℚ) * b⌋ :=
      Int.floor_le_floor (mul_le_mul_of_nonneg_left hab (by positivity))
    exact min_le_min (Int.toNat_le_toNat hfloor) (le_refl _)
  have hchainN : List.Chain (fun x y : ℕ => min x segs.length ≤ min y segs.length)
      0 ((ShuffleAndSplitSegments.accumulate 0 props).map f) := by
    have hmap := List.chain_map_of_chain
      (S := fun x y : ℕ => min x segs.length ≤ min y segs.length) f hmono hchainQ
    have hf0 : f 0 = 0 := by simp [hfdef]
    rwa [hf0] at hmap
  have hchainFull : List.Chain (fun x y : ℕ => min x segs.length ≤ min y segs.length)
      0 (((ShuffleAndSplitSegments.accumulate 0 props).map f).dropLast ++ [segs.length]) := by
    refine chain_append_last _ _ (fun x => ?_) _ _ (chain_dropLast _ _ _ hchainN)
    simp
  -- the telescoping sum
  obtain ⟨hsum_eq, -⟩ := sliceLen_sum segs
    (((ShuffleAndSplitSegments.accumulate 0 props).map f).dropLast ++ [segs.length])
    0 hchainFull
  rw [List.getLastD_concat] at hsum_eq
  -- lengths
  have hfloorslen : ((ShuffleAndSplitSegments.accumulate 0 props).map f).length
      = props.length := by
    rw [List.length_map, accumulate_length]
  have hidxlen : idx.length = props.length + 1 := by
    have h1 : 1 ≤ props.length := by
      rw [hprops_eq]; simp
    rw [hidx_cons]
    simp only [List.length_cons, List.length_append, List.length_dropLast, hfloorslen,
      List.length_singleton, List.length_nil]
    omega
  have hziplen : (idx.zip idx.tail).length = props.length := by
    rw [List.length_zip, List.length_tail, hidxlen]
    omega
  constructor
  · rw [List.map_map]
    exact List.map_fst_zip _ _ (by rw [hziplen, hproplen])
  · rw [List.map_map]
    have hcomp : ((fun p : String × List String => p.2.length) ∘
        (fun p : String × (ℕ × ℕ) => (p.1, pySlice segs p.2.1 p.2.2)))
        = (fun q : ℕ × ℕ => (pySlice segs q.1 q.2).length) ∘ Prod.snd := rfl
    rw [hcomp, ← List.map_map, List.map_snd_zip _ _ (by rw [hziplen, hproplen])]
    have htail : idx.tail =
        ((ShuffleAndSplitSegments.accumulate 0 props).map f).dropLast ++ [segs.length] := by
      rw [hidx_cons]; rfl
    rw [htail]
    rw [show (idx.zip
        (((ShuffleAndSplitSegments.accumulate 0 props).map f).dropLast ++ [segs.length]))
        = ((0 :: (((ShuffleAndSplitSegments.accumulate 0 props).map f).dropLast
            ++ [segs.length])).zip
          ((((ShuffleAndSplitSegments.accumulate 0 props).map f).dropLast
            ++ [segs.length]))) from by rw [← hidx_cons]]
    rw [hsum_eq]
    simp [hseglen]

/-- Witness for claim C3 at the concrete input `["s"]` with the single
split `{"x": 1}` and shuffle disabled. -/
theorem shuffleAndSplit_c3_witness :
    (ShuffleAndSplitSegments.run false (fun l => l) ["s"] [("x", 1)]).map Prod.fst
        = pySorted ([("x", (1 : ℚ))].map Prod.fst) ∧
      ((ShuffleAndSplitSegments.run false (fun l => l) ["s"] [("x", 1)]).map
          (fun p => p.2.length)).sum = (["s"] : List String).length :=
  shuffleAndSplit_c3 false (fun l => l) ["s"] [("x", 1)] (fun _ => rfl)
    (by norm_num) (by norm_num)

/-- Claim C4: the identity digest treats a split equal to the default
dict as equivalent to an unsupplied split (it is replaced by `None`
before delegating to the engine's `Job.hash`, modelled by `superHash`),
and a split that does not equal the default is passed to `superHash`
unchanged. -/
theorem shuffleAndSplit_c4 {α : Type} (superHash : ShuffleAndSplitSegments.Kwargs → α)
    (f : String) (sh : Bool) (seed : ℤ) :
    (∀ s, ShuffleAndSplitSegments.matchesDefault s →
        ShuffleAndSplitSegments.hash superHash ⟨f, some s, sh, seed⟩
          = ShuffleAndSplitSegments.hash superHash ⟨f, none, sh, seed⟩) ∧
      (∀ s, ¬ShuffleAndSplitSegments.matchesDefault s →
        ShuffleAndSplitSegments.hash superHash ⟨f, some s, sh, seed⟩
          = superHash ⟨f, some s, sh, seed⟩) := by
  constructor
  · intro s hs
    simp only [ShuffleAndSplitSegments.hash, if_pos hs]
  · intro s hs
    simp only [ShuffleAndSplitSegments.hash, if_neg hs]

/-- Witness for claim C4: the default split passed explicitly hashes
like an omitted split, and a non-default split is hashed as supplied. -/
theorem shuffleAndSplit_c4_witness :
    (ShuffleAndSplitSegments.hash (fun k => k)
        ⟨"corpus.segments", some [("dev", 1/10), ("train", 9/10)], true, 0⟩
      = ShuffleAndSplitSegments.hash (fun k => k)
        ⟨"corpus.segments", none, true, 0⟩) ∧
    (ShuffleAndSplitSegments.hash (fun k => k)
        ⟨"corpus.segments", some [("train", 1)], true, 0⟩
      = (fun k : ShuffleAndSplitSegments.Kwargs => k)
        ⟨"corpus.segments", some [("train", 1)], true, 0⟩) :=
  ⟨(shuffleAndSplit_c4 (fun k => k) "corpus.segments" true 0).1
      [("dev", 1/10), ("train", 9/10)]
      ⟨rfl, by
        intro p hp
        rcases List.mem_cons.mp hp with rfl | hp'
        · rfl
        · rcases List.mem_cons.mp hp' with rfl | hp''
          · rfl
          · cases hp''⟩,
    (shuffleAndSplit_c4 (fun k => k) "corpus.segments" true 0).2
      [("train", 1)]
      (by
        rintro ⟨h, -⟩
        simp [ShuffleAndSplitSegments.default_split] at h)⟩

/-- Claim C8: constructing a `ShuffleAndSplitSegments` job succeeds with
the supplied split stored unchanged exactly when every proportion is
strictly positive and the proportions sum to 1 within the tolerance
1e-10; otherwise the constructor's assertions fail before any output is
declared. -/
theorem shuffleAndSplit_c8 (split : List (String × ℚ)) :
    ShuffleAndSplitSegments.init (some split) = Except.ok split ↔
      (∀ p ∈ split, 0 < p.2) ∧ |(split.map Prod.snd).sum - 1| < 1 / 10 ^ 10 := by
  unfold ShuffleAndSplitSegments.init
  simp only [Option.getD_some]
  by_cases h : ShuffleAndSplitSegments.validSplit split
  · simp only [if_pos h]
    exact ⟨fun _ => h, fun _ => by trivial⟩
  · simp only [if_neg h]
    constructor
    · intro hcon
      exact Except.noConfusion hcon
    · intro hc
      exact absurd hc h

namespace SplitSegmentFile

/-- The group sizes of `SplitSegmentFile.run`: with `m = n % concurrent`,
group `i` (1-based) has size `n // concurrent + (1 if i <= m else 0)`.
Indices here are 0-based, so the condition reads `i + 1 <= m`. -/
def chunkSizes (L c : ℕ) : List ℕ :=
  (List.range c).map (fun i => L / c + if i + 1 ≤ L % c then 1 else 0)

/-- Consecutive slices `lines[start:end]` of the accumulating loop in
`SplitSegmentFile.run`, expressed by taking each group size in turn. -/
def takeChunks {α : Type} : List ℕ → List α → List (List α)
  | [], _ => []
  | s :: ss, xs => xs.take s :: takeChunks ss (xs.drop s)

/-- `SplitSegmentFile.run`: keep the non-blank lines
(`len(l.strip()) > 0`), then write `concurrent` contiguous groups whose
sizes are `chunkSizes`. -/
def run (concurrent : ℕ) (rawLines : List String) : List (List String) :=
  let lines := rawLines.filter (fun l => decide (0 < (pyStrip l).length))
  takeChunks (chunkSizes lines.length concurrent) lines

end SplitSegmentFile

lemma chunkSizes_eq (L c : ℕ) (hc : 0 < c) :
    SplitSegmentFile.chunkSizes L c =
      List.replicate (L % c) (L / c + 1) ++ List.replicate (c - L % c) (L / c) := by
  have hm : L % c < c := Nat.mod_lt _ hc
  have hr : List.range c
      = List.range (L % c) ++ (List.range (c - L % c)).map (fun x => L % c + x) := by
    rw [← List.range_add]
    congr 1
    omega
  rw [SplitSegmentFile.chunkSizes, hr, List.map_append]
  congr 1
  · rw [List.eq_replicate_iff]
    refine ⟨by simp, ?_⟩
    intro b hb
    rcases List.mem_map.mp hb with ⟨i, hi, rfl⟩
    rw [if_pos (Nat.succ_le_of_lt (List.mem_range.mp hi))]
  · rw [List.eq_replicate_iff]
    refine ⟨by simp, ?_⟩
    intro b hb
    rcases List.mem_map.mp hb with ⟨i, hi, rfl⟩
    rcases List.mem_map.mp hi with ⟨x, hx, rfl⟩
    rw [if_neg (by omega)]
    rfl

lemma chunkSizes_sum (L c : ℕ) (hc : 0 < c) :
    (SplitSegmentFile.chunkSizes L c).sum = L := by
  have hL : c * (L / c) + L % c = L := Nat.div_add_mod L c
  rw [chunkSizes_eq L c hc, List.sum_append, List.sum_replicate, List.sum_replicate,
    smul_eq_mul, smul_eq_mul]
  set m := L % c with hm
  set q := L / c with hq
  have h1 : m ≤ c := le_of_lt (Nat.mod_lt _ hc)
  obtain ⟨d, hd⟩ : ∃ d, c = m + d := ⟨c - m, by omega⟩
  have h2 : c - m = d := by omega
  rw [h2]
  rw [hd] at hL
  calc m * (q + 1) + d * q = (m + d) * q + m := by ring
    _ = L := hL

lemma pairwise_replicate_of_refl {α : Type} (R : α → α → Prop) (a : α) (h : R a a) :
    ∀ n, List.Pairwise R (List.replicate n a) := by
  intro n
  induction n with
  | zero => exact List.Pairwise.nil
  | succ k ih =>
    rw [List.replicate_succ]
    refine List.Pairwise.cons ?_ ih
    intro b hb
    rw [List.eq_of_mem_replicate hb]
    exact h

lemma chunkSizes_sorted (L c : ℕ) (hc : 0 < c) :
    (SplitSegmentFile.chunkSizes L c).Sorted (· ≥ ·) := by
  rw [chunkSizes_eq L c hc]
  rw [List.Sorted, List.pairwise_append]
  refine ⟨pairwise_replicate_of_refl (· ≥ ·) _ (le_refl _) _,
    pairwise_replicate_of_refl (· ≥ ·) _ (le_refl _) _, ?_⟩
  intro a ha b hb
  rw [List.eq_of_mem_replicate ha, List.eq_of_mem_replicate hb]
  exact Nat.le_succ _

lemma takeChunks_length {α : Type} :
    ∀ (ss : List ℕ) (xs : List α), (SplitSegmentFile.takeChunks ss xs).length = ss.length := by
  intro ss
  induction ss with
  | nil => intro xs; rfl
  | cons s ss ih =>
    intro xs
    simp [SplitSegmentFile.takeChunks, ih]

lemma takeChunks_map_length {α : Type} :
    ∀ (ss : List ℕ) (xs : List α), ss.sum ≤ xs.length →
      (SplitSegmentFile.takeChunks ss xs).map List.length = ss := by
  intro ss
  induction ss with
  | nil => intro xs _; rfl
  | cons s ss ih =>
    intro xs hlen
    rw [List.sum_cons] at hlen
    have hs : s ≤ xs.length := le_trans (Nat.le_add_right _ _) hlen
    simp only [SplitSegmentFile.takeChunks, List.map_cons]
    rw [List.length_take, min_eq_left hs, ih (xs.drop s) (by rw [List.length_drop]; omega)]

lemma takeChunks_join {α : Type} :
    ∀ (ss : List ℕ) (xs : List α), ss.sum = xs.length →
      (SplitSegmentFile.takeChunks ss xs).flatten = xs := by
  intro ss
  induction ss with
  | nil =>
    intro xs hlen
    rw [List.sum_nil] at hlen
    rw [List.length_eq_zero.mp hlen.symm]
    rfl
  | cons s ss ih =>
    intro xs hlen
    rw [List.sum_cons] at hlen
    simp only [SplitSegmentFile.takeChunks, List.flatten_cons]
    rw [ih (xs.drop s) (by rw [List.length_drop]; omega), List.take_append_drop]

/-- Claim C7: for every positive group count, `SplitSegmentFile.run`
partitions the non-blank input lines into `concurrent` contiguous groups
preserving order, with every group size in `{L // c, L // c + 1}`, the
larger groups first, the sizes summing to `L`; and on 10 lines with 3
groups the sizes are `[4, 3, 3]`. -/
theorem splitSegmentFile_c7 (concurrent : ℕ) (rawLines : List String)
    (hc : 0 < concurrent) :
    (SplitSegmentFile.run concurrent rawLines).length = concurrent ∧
      (SplitSegmentFile.run concurrent rawLines).flatten
        = rawLines.filter (fun l => decide (0 < (pyStrip l).length)) ∧
      (∀ g ∈ SplitSegmentFile.run concurrent rawLines,
        g.length
            = (rawLines.filter (fun l => decide (0 < (pyStrip l).length))).length
                / concurrent ∨
          g.length
            = (rawLines.filter (fun l => decide (0 < (pyStrip l).length))).length
                / concurrent + 1) ∧
      ((SplitSegmentFile.run concurrent rawLines).map List.length).Sorted (· ≥ ·) ∧
      ((SplitSegmentFile.run concurrent rawLines).map List.length).sum
        = (rawLines.filter (fun l => decide (0 < (pyStrip l).length))).length ∧
      (SplitSegmentFile.run 3
          ["1", "2", "3", "4", "5", "6", "7", "8", "9", "10"]).map List.length
        = [4, 3, 3] := by
  simp only [SplitSegmentFile.run]
  set lines := rawLines.filter (fun l => decide (0 < (pyStrip l).length)) with hlines
  have hsum := chunkSizes_sum lines.length concurrent hc
  have hmap := takeChunks_map_length (SplitSegmentFile.chunkSizes lines.length concurrent)
    lines (le_of_eq hsum)
  refine ⟨?_, ?_, ?_, ?_, ?_, ?_⟩
  · rw [takeChunks_length]
    simp [SplitSegmentFile.chunkSizes]
  · exact takeChunks_join _ _ hsum
  · intro g hg
    have hmem : g.length ∈ SplitSegmentFile.chunkSizes lines.length concurrent := by
      rw [← hmap]
      exact List.mem_map_of_mem _ hg
    rw [chunkSizes_eq _ _ hc] at hmem
    rcases List.mem_append.mp hmem with h | h
    · exact Or.inr (List.eq_of_mem_replicate h)
    · exact Or.inl (List.eq_of_mem_replicate h)
  · rw [hmap]
    exact chunkSizes_sorted _ _ hc
  · rw [hmap, hsum]
  · decide

/-- Witness for claim C7 at 10 concrete lines split into 3 groups. -/
theorem splitSegmentFile_c7_witness :
    (SplitSegmentFile.run 3
        ["1", "2", "3", "4", "5", "6", "7", "8", "9", "10"]).length = 3 ∧
      (SplitSegmentFile.run 3
          ["1", "2", "3", "4", "5", "6", "7", "8", "9", "10"]).flatten
        = (["1", "2", "3", "4", "5", "6", "7", "8", "9", "10"] : List String).filter
            (fun l => decide (0 < (pyStrip l).length)) ∧
      (∀ g ∈ SplitSegmentFile.run 3
          ["1", "2", "3", "4", "5", "6", "7", "8", "9", "10"],
        g.length
            = ((["1", "2", "3", "4", "5", "6", "7", "8", "9", "10"] : List String).filter
                (fun l => decide (0 < (pyStrip l).length))).length / 3 ∨
          g.length
            = ((["1", "2", "3", "4", "5", "6", "7", "8", "9", "10"] : List String).filter
                (fun l => decide (0 < (pyStrip l).length))).length / 3 + 1) ∧
      ((SplitSegmentFile.run 3
          ["1", "2", "3", "4", "5", "6", "7", "8", "9", "10"]).map List.length).Sorted (· ≥ ·) ∧
      ((SplitSegmentFile.run 3
          ["1", "2", "3", "4", "5", "6", "7", "8", "9", "10"]).map List.length).sum
        = ((["1", "2", "3", "4", "5", "6", "7", "8", "9", "10"] : List String).filter
            (fun l => decide (0 < (pyStrip l).length))).length ∧
      (SplitSegmentFile.run 3
          ["1", "2", "3", "4", "5", "6", "7", "8", "9", "10"]).map List.length
        = [4, 3, 3] :=
  splitSegmentFile_c7 3 ["1", "2", "3", "4", "5", "6", "7", "8", "9", "10"] (by decide)

lemma dictInsert_mem {α : Type} (d : List (String × α)) (k : String) (v : α) :
    ∀ q ∈ dictInsert d k v, q ∈ d ∨ q = (k, v) := by
  intro q hq
  unfold dictInsert at hq
  by_cases hany : d.any (fun p => p.1 == k)
  · rw [if_pos hany] at hq
    rcases List.mem_map.mp hq with ⟨p, hp, hpq⟩
    by_cases hpk : p.1 == k
    · rw [if_pos hpk] at hpq
      exact Or.inr hpq.symm
    · rw [if_neg hpk] at hpq
      exact Or.inl (hpq ▸ hp)
  · rw [if_neg hany] at hq
    rcases List.mem_append.mp hq with h | h
    · exact Or.inl h
    · exact Or.inr (List.mem_singleton.mp h)

lemma dictLookup_some_mem {α : Type} (d : List (String × α)) (k : String) (v : α)
    (h : dictLookup d k = some v) : (k, v) ∈ d := by
  unfold dictLookup at h
  rcases Option.map_eq_some'.mp h with ⟨p, hfind, hv⟩
  have hpk : p.1 = k := by
    have := List.find?_some hfind
    simpa using this
  have hpd : p ∈ d := List.mem_of_find?_eq_some hfind
  have : p = (k, v) := by
    cases p
    simp only at hpk hv
    rw [hpk, hv]
  exact this ▸ hpd

namespace UpdateSegmentsWithSegmentMap

/-- The dict `segment_map_dict` of `UpdateSegmentsWithSegmentMap.run`,
built by assigning `dict[item.key] = item.value` over the map entries in
order (a repeated key keeps its position and takes the later value). -/
def buildDict (entries : List (String × String)) : List (String × String) :=
  entries.foldl (fun acc p => dictInsert acc p.1 p.2) []

/-- The rewrite loop of `UpdateSegmentsWithSegmentMap.run`: each input
line is stripped, looked up (a missing key raises `KeyError`, failing the
whole job with no usable output), and the stripped value plus a newline
is emitted. -/
def runLoop (d : List (String × String)) : List String → Except String (List String)
  | [] => Except.ok []
  | l :: ls =>
    match dictLookup d (pyStrip l) with
    | none => Except.error (pyStrip l)
    | some v =>
      match runLoop d ls with
      | Except.ok rest => Except.ok ((pyStrip v ++ "\n") :: rest)
      | Except.error e => Except.error e

/-- `UpdateSegmentsWithSegmentMap.run`. -/
def run (entries : List (String × String)) (lines : List String) :
    Except String (List String) :=
  runLoop (buildDict entries) lines

end UpdateSegmentsWithSegmentMap

/-- Claim C5: the segment-map rewrite fails with a lookup error — with
no output produced — exactly when some input line, after whitespace
trimming, is absent from the segment map; identifiers are never passed
through unchanged. -/
theorem updateSegments_c5 (entries : List (String × String)) (lines : List String) :
    (∃ e, UpdateSegmentsWithSegmentMap.run entries lines = Except.error e) ↔
      ∃ l ∈ lines,
        dictLookup (UpdateSegmentsWithSegmentMap.buildDict entries) (pyStrip l)
          = none := by
  rw [UpdateSegmentsWithSegmentMap.run]
  induction lines with
  | nil =>
    simp [UpdateSegmentsWithSegmentMap.runLoop]
  | cons l ls ih =>
    rw [UpdateSegmentsWithSegmentMap.runLoop]
    cases hl : dictLookup (UpdateSegmentsWithSegmentMap.buildDict entries) (pyStrip l) with
    | none =>
      simp only []
      constructor
      · intro _
        exact ⟨l, List.mem_cons_self _ _, hl⟩
      · intro _
        exact ⟨pyStrip l, rfl⟩
    | some v =>
      simp only []
      cases hrest : UpdateSegmentsWithSegmentMap.runLoop
          (UpdateSegmentsWithSegmentMap.buildDict entries) ls with
      | ok rest =>
        rw [hrest] at ih
        constructor
        · rintro ⟨e, he⟩
          exact Except.noConfusion he
        · rintro ⟨l', hl', hnone⟩
          rcases List.mem_cons.mp hl' with rfl | hl''
          · rw [hl] at hnone
            exact Option.noConfusion hnone
          · have : ∃ e, (Except.ok rest : Except String (List String))
                = Except.error e := ih.mpr ⟨l', hl'', hnone⟩
            rcases this with ⟨e, he⟩
            exact Except.noConfusion he
      | error e =>
        rw [hrest] at ih
        constructor
        · intro _
          rcases ih.mp ⟨e, rfl⟩ with ⟨l', hl', hnone⟩
          exact ⟨l', List.mem_cons_of_mem _ hl', hnone⟩
        · intro _
          exact ⟨e, rfl⟩

/-- Claim C10 (counterexample): the empty segment map is an identity map
(vacuously), yet on the input line "x" the rewrite raises a lookup error
instead of returning the trimmed input. -/
theorem updateSegments_c10_counterexample :
    (∀ p ∈ ([] : List (String × String)), p.1 = p.2) ∧
      UpdateSegmentsWithSegmentMap.run [] ["x"]
        ≠ Except.ok ((["x"] : List String).map (fun l => pyStrip l ++ "\n")) := by
  constructor
  · intro p hp
    exact absurd hp (List.not_mem_nil p)
  · intro h
    have hrun : UpdateSegmentsWithSegmentMap.run [] ["x"] = Except.error "x" := rfl
    rw [hrun] at h
    exact Except.noConfusion h

/-- Claim C10 (amended): for an identity segment map (key equals value
for every entry, keys whitespace-trimmed) whose keys cover every trimmed
input line, the rewrite returns the input unchanged modulo whitespace
trimming: each output line is the trimmed input line plus a newline. -/
theorem updateSegments_c10_amended (entries : List (String × String))
    (lines : List String)
    (hId : ∀ p ∈ entries, p.1 = p.2)
    (hTrim : ∀ p ∈ entries, pyStrip p.1 = p.1)
    (hCover : ∀ l ∈ lines,
      dictLookup (UpdateSegmentsWithSegmentMap.buildDict entries) (pyStrip l) ≠ none) :
    UpdateSegmentsWithSegmentMap.run entries lines
      = Except.ok (lines.map fun l => pyStrip l ++ "\n") := by
  have hsub : ∀ q ∈ UpdateSegmentsWithSegmentMap.buildDict entries, q ∈ entries := by
    have general : ∀ (es acc : List (String × String)),
        ∀ q ∈ es.foldl (fun a p => dictInsert a p.1 p.2) acc, q ∈ acc ∨ q ∈ es := by
      intro es
      induction es with
      | nil => intro acc q hq; exact Or.inl hq
      | cons p ps ih =>
        intro acc q hq
        rw [List.foldl_cons] at hq
        rcases ih (dictInsert acc p.1 p.2) q hq with h | h
        · rcases dictInsert_mem acc p.1 p.2 q h with h' | h'
          · exact Or.inl h'
          · refine Or.inr (List.mem_cons.mpr (Or.inl ?_))
            rw [h']
        · exact Or.inr (List.mem_cons_of_mem _ h)
    intro q hq
    rcases general entries [] q hq with h | h
    · cases h
    · exact h
  rw [UpdateSegmentsWithSegmentMap.run]
  induction lines with
  | nil => rfl
  | cons l ls ih =>
    have hl := hCover l (List.mem_cons_self _ _)
    rcases Option.ne_none_iff_exists'.mp hl with ⟨v, hv⟩
    have hmem : (pyStrip l, v) ∈ entries :=
      hsub _ (dictLookup_some_mem _ _ _ hv)
    have hveq : pyStrip l = v := hId _ hmem
    have htr : pyStrip (pyStrip l) = pyStrip l := hTrim _ hmem
    rw [UpdateSegmentsWithSegmentMap.runLoop, hv,
      ih (fun l' hl' => hCover l' (List.mem_cons_of_mem _ hl'))]
    show Except.ok ((pyStrip v ++ "\n") :: List.map (fun l => pyStrip l ++ "\n") ls)
        = Except.ok (List.map (fun l => pyStrip l ++ "\n") (l :: ls))
    rw [List.map_cons, ← hveq, htr]

/-- Witness for claim C10 (amended) on the identity map `{"a": "a"}` and
the input lines `["a", " a "]`. -/
theorem updateSegments_c10_witness :
    UpdateSegmentsWithSegmentMap.run [("a", "a")] ["a", " a "]
      = Except.ok ((["a", " a "] : List String).map fun l => pyStrip l ++ "\n") :=
  updateSegments_c10_amended [("a", "a")] ["a", " a "]
    (by decide) (by decide) (by decide)

/-- A Python value appearing in a RETURNN config: an int, a string, or
an arbitrary object with no readable literal representation (tagged by a
description).  Sisyphus `Variable`s are already instantiated. -/
inductive PyVal where
  | pyInt : ℤ → PyVal
  | pyStr : String → PyVal
  | obj : String → PyVal
deriving DecidableEq

/-- `pprint.isreadable`: true exactly for values whose representation
can be read back (ints and strings here); false for generic objects. -/
def isreadable : PyVal → Bool
  | .pyInt _ => true
  | .pyStr _ => true
  | .obj _ => false

/-- `pprint.PrettyPrinter.pformat` (`repr`) for the values of the model;
only ever emitted for readable values. -/
def pformat : PyVal → String
  | .pyInt n => toString n
  | .pyStr s => "\x27" ++ s ++ "\x27"
  | .obj s => "<" ++ s ++ ">"

/-- `json_data.replace(chr(34), chr(92) ++ chr(34))` of the serializer:
escape every double quote with a backslash. -/
def escList : List Char → List Char
  | [] => []
  | c :: cs => if c = '\"' then '\\' :: '\"' :: escList cs else c :: escList cs

/-- String form of `escList`. -/
def escapeQuotes (s : String) : String := ⟨escList s.data⟩

/-- Sorting of `sorted(config.items())`: Python sorts the `(key, value)`
tuples, which on a dict (unique keys) is ordering by key. -/
def pairKeyLe {α : Type} (a b : String × α) : Prop := keyLe a.1 b.1

instance {α : Type} : DecidableRel (pairKeyLe (α := α)) :=
  fun a b => inferInstanceAs (Decidable (keyLe a.1 b.1))

/-- One iteration of the serializer loop: a readable value is emitted as
`key = repr(value)`, an unreadable one is put into `unreadable_data`. -/
def configStep (acc : List String × List (String × PyVal)) (kv : String × PyVal) :
    List String × List (String × PyVal) :=
  if isreadable kv.2 then (acc.1 ++ [kv.1 ++ " = " ++ pformat kv.2], acc.2)
  else (acc.1, dictInsert acc.2 kv.1 kv.2)

/-- The `config_lines` of `ReturnnConfig.serialize`: iterate over the
sorted items, then append either the single JSON fallback assignment for
the collected unreadable values (`jsonDumps` models `json.dumps`) or the
empty `config` dict. -/
def configLines (jsonDumps : List (String × PyVal) → String)
    (config : List (String × PyVal)) : List String :=
  let res := (List.insertionSort pairKeyLe config).foldl configStep ([], [])
  if res.2.length > 0 then
    res.1 ++ ["import json",
      "config = json.loads(\"" ++ escapeQuotes (jsonDumps res.2) ++ "\")"]
  else res.1 ++ ["config = {}"]

/-- The `ReturnnConfig` object: regular config, post config, and the
prolog/epilog fields with their hash overrides, as set up by
`ReturnnConfig.__init__` (string-valued code only; the reflective
function/class source extraction requires Python introspection and never
feeds the hash). -/
structure ReturnnConfig where
  config : List (String × PyVal)
  post_config : List (String × PyVal)
  python_prolog : Option String
  python_prolog_hash : Option String
  extra_python_code : String
  extra_python_hash : String
deriving DecidableEq

namespace ReturnnConfig

/-- `ReturnnConfig.__parse_python` on the cases of the model: `None`
becomes the empty string, a string is returned as is. -/
def parsePython : Option String → String
  | none => ""
  | some s => s

/-- `ReturnnConfig.serialize`.  Note the aliasing of the source:
`config = self.config; config.update(self.post_config)` mutates
`self.config` in place, so the method returns both the emitted text and
the post-call object state.  `instanciate_vars` is the identity here
(the model carries no un-instantiated `Variable`s). -/
def serialize (jsonDumps : List (String × PyVal) → String) (c : ReturnnConfig) :
    String × ReturnnConfig :=
  let newConfig := dictUpdate c.config c.post_config
  let body := String.intercalate "\n" (configLines jsonDumps newConfig)
  let text := "#!rnn.py\n\n" ++ parsePython c.python_prolog ++ "\n\n" ++ body
      ++ "\n\nlocals().update(**config)\n\n" ++ c.extra_python_code ++ "\n"
  (text, { c with config := newConfig })

/-- The dict returned by `ReturnnConfig.hash`: the regular config, the
extra-python hash field, and — only when present — the prolog hash field
(the optional field models the conditionally added key). -/
structure ConfigHash where
  returnn_config : List (String × PyVal)
  extra_python_hash : String
  python_prolog_hash : Option String
deriving DecidableEq

/-- `ReturnnConfig.hash`. -/
def hash (c : ReturnnConfig) : ConfigHash :=
  ⟨c.config, c.extra_python_hash, c.python_prolog_hash⟩

end ReturnnConfig

/-- Claim C2 (code bug): `serialize` mutates the regular config layer
(`config.update(self.post_config)` runs on `self.config` itself), so
with a non-empty post config the identity digest differs before and
after `serialize` — the post-config entry `log_verbosity = 5` enters the
digest, contradicting the contract that post-config is excluded from
identity. -/
theorem returnnConfig_c2_bug :
    ReturnnConfig.hash
        (ReturnnConfig.serialize (fun _ => "")
          ⟨[], [("log_verbosity", PyVal.pyInt 5)], none, none, "", ""⟩).2
      ≠ ReturnnConfig.hash
          ⟨[], [("log_verbosity", PyVal.pyInt 5)], none, none, "", ""⟩ := by
  decide

lemma any_beq_iff_mem_keys {α : Type} (d : List (String × α)) (k : String) :
    d.any (fun p => p.1 == k) = true ↔ k ∈ d.map Prod.fst := by
  rw [List.any_eq_true]
  constructor
  · rintro ⟨p, hp, hbeq⟩
    exact List.mem_map.mpr ⟨p, hp, beq_iff_eq.mp hbeq⟩
  · intro hmem
    rcases List.mem_map.mp hmem with ⟨p, hp, rfl⟩
    exact ⟨p, hp, beq_iff_eq.mpr rfl⟩

lemma dictInsert_of_not_mem {α : Type} (d : List (String × α)) (k : String) (v : α)
    (h : k ∉ d.map Prod.fst) : dictInsert d k v = d ++ [(k, v)] := by
  rw [dictInsert, if_neg]
  intro hany
  exact h ((any_beq_iff_mem_keys d k).mp hany)

lemma dictInsert_keys {α : Type} (d : List (String × α)) (k : String) (v : α) :
    (dictInsert d k v).map Prod.fst
      = if k ∈ d.map Prod.fst then d.map Prod.fst else d.map Prod.fst ++ [k] := by
  by_cases h : k ∈ d.map Prod.fst
  · rw [if_pos h, dictInsert, if_pos ((any_beq_iff_mem_keys d k).mpr h), List.map_map]
    refine List.map_congr_left ?_
    intro p _
    by_cases hpk : p.1 == k
    · simp only [Function.comp_apply, if_pos hpk]
      exact (beq_iff_eq.mp hpk).symm
    · simp only [Function.comp_apply, if_neg hpk]
  · rw [if_neg h, dictInsert_of_not_mem d k v h, List.map_append]
    rfl

lemma dictInsert_keys_nodup {α : Type} (d : List (String × α)) (k : String) (v : α)
    (h : (d.map Prod.fst).Nodup) : ((dictInsert d k v).map Prod.fst).Nodup := by
  rw [dictInsert_keys]
  by_cases hk : k ∈ d.map Prod.fst
  · rwa [if_pos hk]
  · rw [if_neg hk]
    rw [List.nodup_append]
    exact ⟨h, List.nodup_singleton k,
      fun a ha hmem => hk ((List.mem_singleton.mp hmem) ▸ ha)⟩

lemma dictUpdate_keys_nodup {α : Type} (e d : List (String × α))
    (h : (d.map Prod.fst).Nodup) : ((dictUpdate d e).map Prod.fst).Nodup := by
  induction e generalizing d with
  | nil => exact h
  | cons p ps ih =>
    rw [dictUpdate, List.foldl_cons]
    exact ih _ (dictInsert_keys_nodup _ _ _ h)

lemma configFold_eq :
    ∀ (l : List (String × PyVal)) (acc : List String × List (String × PyVal)),
      (∀ k ∈ l.map Prod.fst, k ∉ acc.2.map Prod.fst) →
      (l.map Prod.fst).Nodup →
      l.foldl configStep acc
        = (acc.1 ++ (l.filter (fun kv => isreadable kv.2)).map
              (fun kv => kv.1 ++ " = " ++ pformat kv.2),
            acc.2 ++ l.filter (fun kv => !isreadable kv.2)) := by
  intro l
  induction l with
  | nil => intro acc _ _; simp
  | cons kv rest ih =>
    intro acc hdisj hnodup
    have hnodup' : (rest.map Prod.fst).Nodup := by
      rw [List.map_cons] at hnodup
      exact hnodup.of_cons
    have hhead : kv.1 ∉ rest.map Prod.fst := by
      rw [List.map_cons] at hnodup
      exact (List.nodup_cons.mp hnodup).1
    rw [List.foldl_cons]
    by_cases hr : isreadable kv.2
    · rw [show configStep acc kv = (acc.1 ++ [kv.1 ++ " = " ++ pformat kv.2], acc.2) from
        by rw [configStep, if_pos hr]]
      rw [ih (acc.1 ++ [kv.1 ++ " = " ++ pformat kv.2], acc.2)
        (fun k hk => hdisj k (by rw [List.map_cons]; exact List.mem_cons_of_mem _ hk))
        hnodup']
      dsimp only
      rw [List.filter_cons_of_pos (p := fun q : String × PyVal => isreadable q.2) hr,
        List.filter_cons_of_neg (p := fun q : String × PyVal => !isreadable q.2) (by simp [hr]),
        List.map_cons, List.append_assoc, List.singleton_append]
    · have hknotin : kv.1 ∉ acc.2.map Prod.fst :=
        hdisj kv.1 (by rw [List.map_cons]; exact List.mem_cons_self _ _)
      rw [show configStep acc kv = (acc.1, acc.2 ++ [kv]) from
        by rw [configStep, if_neg hr, dictInsert_of_not_mem _ _ _ hknotin]]
      rw [ih (acc.1, acc.2 ++ [kv]) ?_ hnodup']
      · dsimp only
        rw [List.filter_cons_of_neg (p := fun q : String × PyVal => isreadable q.2) (by simp [hr]),
          List.filter_cons_of_pos (p := fun q : String × PyVal => !isreadable q.2) (by simp [hr]),
          List.append_assoc, List.singleton_append]
      · intro k hk
        rw [List.map_append]
        intro hmem
        rcases List.mem_append.mp hmem with h' | h'
        · exact hdisj k (by rw [List.map_cons]; exact List.mem_cons_of_mem _ hk) h'
        · rcases List.mem_singleton.mp h' with rfl
          exact hhead hk

/-- Claim C6: `serialize` emits the merged config entries (post-config
updating the regular config) in sorted key order — each readable value
directly as `key = repr(value)`, and all values lacking a literal form
through the single JSON fallback assignment; in particular
`{"a": 3, "b": SomeNonLiteralObject()}` yields `a = 3` directly and
routes `b` through the fallback. -/
theorem returnnConfig_c6 (jsonDumps : List (String × PyVal) → String)
    (c : ReturnnConfig) (hNodup : (c.config.map Prod.fst).Nodup) :
    (configLines jsonDumps (dictUpdate c.config c.post_config)
        = ((List.insertionSort pairKeyLe (dictUpdate c.config c.post_config)).filter
              (fun kv => isreadable kv.2)).map
            (fun kv => kv.1 ++ " = " ++ pformat kv.2)
          ++ (if ((List.insertionSort pairKeyLe (dictUpdate c.config c.post_config)).filter
                  (fun kv => !isreadable kv.2)).length > 0 then
                ["import json",
                  "config = json.loads(\"" ++ escapeQuotes (jsonDumps
                    ((List.insertionSort pairKeyLe (dictUpdate c.config c.post_config)).filter
                      (fun kv => !isreadable kv.2))) ++ "\")"]
              else ["config = {}"])) ∧
      configLines jsonDumps
          [("a", PyVal.pyInt 3), ("b", PyVal.obj "SomeNonLiteralObject")]
        = ["a = 3", "import json",
            "config = json.loads(\""
              ++ escapeQuotes (jsonDumps [("b", PyVal.obj "SomeNonLiteralObject")])
              ++ "\")"] := by
  constructor
  · have hmerged : ((dictUpdate c.config c.post_config).map Prod.fst).Nodup :=
      dictUpdate_keys_nodup c.post_config c.config hNodup
    have hsortnodup :
        ((List.insertionSort pairKeyLe (dictUpdate c.config c.post_config)).map
          Prod.fst).Nodup :=
      (((List.perm_insertionSort pairKeyLe
        (dictUpdate c.config c.post_config)).map Prod.fst).nodup_iff).mpr hmerged
    rw [configLines]
    rw [configFold_eq _ ([], []) (fun k _ h => by cases h) hsortnodup]
    simp only [List.nil_append]
    by_cases hlen : ((List.insertionSort pairKeyLe
        (dictUpdate c.config c.post_config)).filter
          (fun kv => !isreadable kv.2)).length > 0
    · rw [if_pos hlen, if_pos hlen]
    · rw [if_neg hlen, if_neg hlen]
  · rfl

/-- Witness for claim C6 with the single-entry config `{"a": 3}` (whose
keys are trivially distinct) and a constant `json.dumps` stand-in. -/
theorem returnnConfig_c6_witness :
    (configLines (fun _ => "")
        (dictUpdate [("a", PyVal.pyInt 3)] [])
        = ((List.insertionSort pairKeyLe (dictUpdate [("a", PyVal.pyInt 3)] [])).filter
              (fun kv => isreadable kv.2)).map
            (fun kv => kv.1 ++ " = " ++ pformat kv.2)
          ++ (if ((List.insertionSort pairKeyLe (dictUpdate [("a", PyVal.pyInt 3)] [])).filter
                  (fun kv => !isreadable kv.2)).length > 0 then
                ["import json",
                  "config = json.loads(\"" ++ escapeQuotes ((fun _ => "")
                    ((List.insertionSort pairKeyLe (dictUpdate [("a", PyVal.pyInt 3)] [])).filter
                      (fun kv => !isreadable kv.2))) ++ "\")"]
              else ["config = {}"])) ∧
      configLines (fun _ => "")
          [("a", PyVal.pyInt 3), ("b", PyVal.obj "SomeNonLiteralObject")]
        = ["a = 3", "import json",
            "config = json.loads(\""
              ++ escapeQuotes ((fun _ => "")
                  [("b", PyVal.obj "SomeNonLiteralObject")])
              ++ "\")"] :=
  returnnConfig_c6 (fun _ => "")
    ⟨[("a", PyVal.pyInt 3)], [], none, none, "", ""⟩ (by decide)

/-- A corpus segment as consumed by `SortSegmentsByLengthAndShuffle.run`:
full name, start time, end time (`none` models an infinite/unbounded
end, `np.isinf(segment.end)`), and the recording's audio path. -/
structure Segment where
  fullname : String
  start : ℚ
  endTime : Option ℚ
  audio : String
deriving DecidableEq

/-- Python's `s[-4:]`: the last four characters (or the whole string if
shorter). -/
def takeLast (n : ℕ) (cs : List Char) : List Char := (cs.reverse.take n).reverse

/-- The recognized-container check `segment.recording.audio[-4:] == ".wav"`. -/
def isWavAudio (s : String) : Bool := takeLast 4 s.data == ".wav".data

namespace SortSegmentsByLengthAndShuffle

/-- One iteration of the `segment_dict` loop of
`SortSegmentsByLengthAndShuffle.run`: a listed segment with a bounded
end contributes `end - start`; a listed segment with an unbounded end
contributes the audio-file duration (`wavDuration` models the `wave`
module) when the audio is a ".wav", and is silently skipped otherwise. -/
def step (wavDuration : String → ℚ) (listed : List String)
    (d : List (String × ℚ)) (seg : Segment) : List (String × ℚ) :=
  if listed.contains seg.fullname then
    match seg.endTime with
    | none =>
      if isWavAudio seg.audio then
        dictInsert d (seg.fullname ++ "\n") (wavDuration seg.audio)
      else d
    | some e => dictInsert d (seg.fullname ++ "\n") (e - seg.start)
  else d

/-- Whether a corpus segment enters `segment_dict`. -/
def qualifies (listed : List String) (seg : Segment) : Bool :=
  listed.contains seg.fullname &&
    (match seg.endTime with
     | some _ => true
     | none => isWavAudio seg.audio)

/-- The `segment_dict` of `SortSegmentsByLengthAndShuffle.run`. -/
def buildSegmentDict (wavDuration : String → ℚ) (listed : List String)
    (segs : List Segment) : List (String × ℚ) :=
  segs.foldl (step wavDuration listed) []

/-- `SortSegmentsByLengthAndShuffle.run`: the weighted full permutation
drawn by `np.random.choice(keys, size=len(probs), replace=False, p=probs)`
is modelled by the permutation parameter `choice` applied to the dict's
keys (the `exp`-weights only bias the order of the drawn permutation). -/
def run (wavDuration : String → ℚ) (choice : List String → List String)
    (listed : List String) (corpusSegments : List Segment) : List String :=
  choice ((buildSegmentDict wavDuration listed corpusSegments).map Prod.fst)

end SortSegmentsByLengthAndShuffle

lemma step_keys (wavDuration : String → ℚ) (listed : List String)
    (d : List (String × ℚ)) (seg : Segment) :
    (SortSegmentsByLengthAndShuffle.step wavDuration listed d seg).map Prod.fst
      = if SortSegmentsByLengthAndShuffle.qualifies listed seg then
          (if (seg.fullname ++ "\n") ∈ d.map Prod.fst then d.map Prod.fst
            else d.map Prod.fst ++ [seg.fullname ++ "\n"])
        else d.map Prod.fst := by
  rw [SortSegmentsByLengthAndShuffle.step, SortSegmentsByLengthAndShuffle.qualifies]
  by_cases hl : listed.contains seg.fullname
  · have hl' : seg.fullname ∈ listed := List.mem_of_elem_eq_true hl
    cases he : seg.endTime with
    | none =>
      by_cases hw : isWavAudio seg.audio
      · simp [hl, hl', hw, dictInsert_keys]
      · simp [hl, hl', hw]
    | some e => simp [hl, hl', dictInsert_keys]
  · have hl' : seg.fullname ∉ listed := fun hm => hl (List.elem_eq_true_of_mem hm)
    simp [hl, hl']

lemma buildDict_keys_mem (wavDuration : String → ℚ) (listed : List String) :
    ∀ (segs : List Segment) (d : List (String × ℚ)) (k : String),
      k ∈ (segs.foldl (SortSegmentsByLengthAndShuffle.step wavDuration listed) d).map
          Prod.fst ↔
        k ∈ d.map Prod.fst ∨ ∃ seg ∈ segs,
          SortSegmentsByLengthAndShuffle.qualifies listed seg
            ∧ k = seg.fullname ++ "\n" := by
  intro segs
  induction segs with
  | nil => intro d k; simp
  | cons seg rest ih =>
    intro d k
    rw [List.foldl_cons, ih]
    have hstep : k ∈ (SortSegmentsByLengthAndShuffle.step wavDuration listed d seg).map
        Prod.fst ↔
        k ∈ d.map Prod.fst ∨
          (SortSegmentsByLengthAndShuffle.qualifies listed seg
            ∧ k = seg.fullname ++ "\n") := by
      rw [step_keys]
      by_cases hq : SortSegmentsByLengthAndShuffle.qualifies listed seg
      · rw [if_pos hq]
        by_cases hmem : (seg.fullname ++ "\n") ∈ d.map Prod.fst
        · rw [if_pos hmem]
          constructor
          · exact fun h => Or.inl h
          · rintro (h | ⟨-, rfl⟩)
            · exact h
            · exact hmem
        · rw [if_neg hmem]
          rw [List.mem_append, List.mem_singleton]
          constructor
          · rintro (h | h)
            · exact Or.inl h
            · exact Or.inr ⟨hq, h⟩
          · rintro (h | ⟨-, h⟩)
            · exact Or.inl h
            · exact Or.inr h
      · rw [if_neg hq]
        constructor
        · exact fun h => Or.inl h
        · rintro (h | ⟨hq', -⟩)
          · exact h
          · exact absurd hq' hq
    rw [hstep]
    constructor
    · rintro (h | h)
      · rcases h with h | h
        · exact Or.inl h
        · exact Or.inr ⟨seg, List.mem_cons_self _ _, h.1, h.2⟩
      · rcases h with ⟨s, hs, h1, h2⟩
        exact Or.inr ⟨s, List.mem_cons_of_mem _ hs, h1, h2⟩
    · rintro (h | ⟨s, hs, h1, h2⟩)
      · exact Or.inl (Or.inl h)
      · rcases List.mem_cons.mp hs with rfl | hs'
        · exact Or.inl (Or.inr ⟨h1, h2⟩)
        · exact Or.inr ⟨s, hs', h1, h2⟩

lemma buildDict_keys_nodup (wavDuration : String → ℚ) (listed : List String) :
    ∀ (segs : List Segment) (d : List (String × ℚ)),
      (d.map Prod.fst).Nodup →
      ((segs.foldl (SortSegmentsByLengthAndShuffle.step wavDuration listed) d).map
        Prod.fst).Nodup := by
  intro segs
  induction segs with
  | nil => intro d h; exact h
  | cons seg rest ih =>
    intro d h
    rw [List.foldl_cons]
    refine ih _ ?_
    rw [step_keys]
    by_cases hq : SortSegmentsByLengthAndShuffle.qualifies listed seg
    · rw [if_pos hq]
      by_cases hmem : (seg.fullname ++ "\n") ∈ d.map Prod.fst
      · rwa [if_pos hmem]
      · rw [if_neg hmem, List.nodup_append]
        exact ⟨h, List.nodup_singleton _,
          fun a ha hmem' => hmem ((List.mem_singleton.mp hmem') ▸ ha)⟩
    · rwa [if_neg hq]

lemma string_append_data (s t : String) : (s ++ t).data = s.data ++ t.data := rfl

lemma string_append_right_inj (s₁ s₂ t : String) (h : s₁ ++ t = s₂ ++ t) :
    s₁ = s₂ := by
  have hd : s₁.data ++ t.data = s₂.data ++ t.data := by
    rw [← string_append_data, ← string_append_data, h]
  have hdd : s₁.data = s₂.data := List.append_cancel_right hd
  cases s₁
  cases s₂
  exact congrArg String.mk hdd

/-- Claim C9: in `SortSegmentsByLengthAndShuffle.run`, a listed segment
with an unbounded end whose audio is not a ".wav" is silently omitted
from the weighted sample and the output, without an error; every other
listed corpus segment appears in the output exactly once.  The seeded
`np.random.choice` permutation is the parameter `choice`. -/
theorem sortSegments_c9 (wavDuration : String → ℚ)
    (choice : List String → List String) (listed : List String)
    (corpusSegments : List Segment) (seg : Segment)
    (hChoice : ∀ l, (choice l).Perm l)
    (hNodup : (corpusSegments.map Segment.fullname).Nodup)
    (hMem : seg ∈ corpusSegments)
    (hListed : listed.contains seg.fullname = true) :
    (seg.endTime = none → isWavAudio seg.audio = false →
        (seg.fullname ++ "\n")
          ∉ SortSegmentsByLengthAndShuffle.run wavDuration choice listed
              corpusSegments) ∧
      ((∃ e, seg.endTime = some e) ∨ isWavAudio seg.audio = true →
        (SortSegmentsByLengthAndShuffle.run wavDuration choice listed
            corpusSegments).count (seg.fullname ++ "\n") = 1) := by
  have hperm := hChoice
    ((SortSegmentsByLengthAndShuffle.buildSegmentDict wavDuration listed
      corpusSegments).map Prod.fst)
  constructor
  · intro hinf hwav hmemrun
    have hkeys := hperm.mem_iff.mp hmemrun
    rw [SortSegmentsByLengthAndShuffle.buildSegmentDict,
      buildDict_keys_mem wavDuration listed corpusSegments [] _] at hkeys
    rcases hkeys with h | ⟨s, hs, hq, heq⟩
    · cases h
    · have hname : s.fullname = seg.fullname :=
        string_append_right_inj _ _ _ heq.symm
      have hseq : s = seg :=
        List.inj_on_of_nodup_map hNodup hs hMem hname
      rw [hseq, SortSegmentsByLengthAndShuffle.qualifies, hinf, hwav] at hq
      simp at hq
  · intro hbound
    have hq : SortSegmentsByLengthAndShuffle.qualifies listed seg = true := by
      rw [SortSegmentsByLengthAndShuffle.qualifies, hListed]
      rcases hbound with ⟨e, he⟩ | hw
      · rw [he]
        rfl
      · cases hend : seg.endTime
        · rw [hw]
          rfl
        · rfl
    have hmemkeys : (seg.fullname ++ "\n")
        ∈ (SortSegmentsByLengthAndShuffle.buildSegmentDict wavDuration listed
          corpusSegments).map Prod.fst := by
      rw [SortSegmentsByLengthAndShuffle.buildSegmentDict,
        buildDict_keys_mem wavDuration listed corpusSegments [] _]
      exact Or.inr ⟨seg, hMem, hq, rfl⟩
    have hnodupkeys : ((SortSegmentsByLengthAndShuffle.buildSegmentDict wavDuration
        listed corpusSegments).map Prod.fst).Nodup :=
      buildDict_keys_nodup wavDuration listed corpusSegments [] List.nodup_nil
    rw [SortSegmentsByLengthAndShuffle.run, hperm.count_eq]
    exact List.count_eq_one_of_mem hnodupkeys hmemkeys

/-- Witness for claim C9: a two-segment corpus in which the listed
segment "bad" has an unbounded end and a non-wav audio file, with the
identity permutation standing in for the seeded draw. -/
theorem sortSegments_c9_witness :
    ((⟨"bad", 0, none, "y.mp3"⟩ : Segment).endTime = none →
        isWavAudio (⟨"bad", 0, none, "y.mp3"⟩ : Segment).audio = false →
        ((⟨"bad", 0, none, "y.mp3"⟩ : Segment).fullname ++ "\n")
          ∉ SortSegmentsByLengthAndShuffle.run (fun _ => 0) (fun l => l)
              ["good", "bad"]
              [⟨"good", 0, some 1, "x.mp3"⟩, ⟨"bad", 0, none, "y.mp3"⟩]) ∧
      ((∃ e, (⟨"bad", 0, none, "y.mp3"⟩ : Segment).endTime = some e) ∨
          isWavAudio (⟨"bad", 0, none, "y.mp3"⟩ : Segment).audio = true →
        (SortSegmentsByLengthAndShuffle.run (fun _ => 0) (fun l => l)
            ["good", "bad"]
            [⟨"good", 0, some 1, "x.mp3"⟩, ⟨"bad", 0, none, "y.mp3"⟩]).count
          ((⟨"bad", 0, none, "y.mp3"⟩ : Segment).fullname ++ "\n") = 1) :=
  sortSegments_c9 (fun _ => 0) (fun l => l) ["good", "bad"]
    [⟨"good", 0, some 1, "x.mp3"⟩, ⟨"bad", 0, none, "y.mp3"⟩]
    ⟨"bad", 0, none, "y.mp3"⟩
    (fun l => List.Perm.refl l)
    (by decide)
    (List.mem_cons_of_mem _ (List.mem_cons_self _ _))
    (by decide)

end I6Core
